import Mathlib

/-!
# Palette Optimizer — verification of the quantization engine

Shallow embedding of the algorithmic core of `Palette_Optimizer.py`:
the squared-distance color metric (`color_distance_sq`, source lines
1541–1545), the linear nearest-color scan with memoization
(lines 1613–1624 and 1662–1672), the greedy palette-discovery per-pixel
transition (lines 1602–1635), the fixed-palette mapping loop
(lines 1646–1673), the progress-publication protocol (lines 1637–1641,
1674–1678, 1690–1693) and the cooperative cancellation protocol
(lines 1587–1605, 1650–1656, 1682–1688).

Pixel grids are embedded as the list of pixel colors in the order the
worker visits them (the discovery mode's tile/shuffle traversal and the
fixed mode's raster traversal are both bijective enumerations of the
width×height grid, so the visitation order is carried as the list order;
theorems quantify over all orders, which covers the randomized shuffle).
Python's unbounded integers become `Int`; the floating-point
`allowed_sq` threshold becomes an exact rational parameter, with the
concrete IEEE-754 value at threshold 0 computed exactly below.
-/

namespace PaletteOptimizer

/-- A pixel / palette color: an exact `(r, g, b)` triplet.  The source
stores Python integer tuples; channel values of decoded images lie in
`[0, 255]` (`Color.InRange`), which is tracked as a hypothesis where a
theorem needs it. -/
structure Color where
  r : Int
  g : Int
  b : Int
deriving DecidableEq, Repr

/-- The 8-bit channel range of colors coming from a decoded image. -/
def Color.InRange (c : Color) : Prop :=
  0 ≤ c.r ∧ c.r ≤ 255 ∧ 0 ≤ c.g ∧ c.g ≤ 255 ∧ 0 ≤ c.b ∧ c.b ≤ 255

instance (c : Color) : Decidable c.InRange := by
  unfold Color.InRange; infer_instance

/-- The metric `color_distance_sq` (source lines 1541–1545): squared Euclidean
distance between two RGB colors, exact integer arithmetic. -/
def color_distance_sq (a b : Color) : Int :=
  (a.r - b.r) ^ 2 + (a.g - b.g) ^ 2 + (a.b - b.b) ^ 2

theorem color_distance_sq_nonneg (a b : Color) : 0 ≤ color_distance_sq a b := by
  unfold color_distance_sq; positivity

theorem color_distance_sq_eq_zero {a b : Color}
    (h : color_distance_sq a b = 0) : a = b := by
  unfold color_distance_sq at h
  have hr : a.r - b.r = 0 := by nlinarith [sq_nonneg (a.r - b.r), sq_nonneg (a.g - b.g), sq_nonneg (a.b - b.b)]
  have hg : a.g - b.g = 0 := by nlinarith [sq_nonneg (a.r - b.r), sq_nonneg (a.g - b.g), sq_nonneg (a.b - b.b)]
  have hb : a.b - b.b = 0 := by nlinarith [sq_nonneg (a.r - b.r), sq_nonneg (a.g - b.g), sq_nonneg (a.b - b.b)]
  cases a; cases b
  simp only [Color.mk.injEq]
  refine ⟨by linarith [hr], by linarith [hg], by linarith [hb]⟩

/-- For 8-bit colors the squared distance is at most
`255² · 3 = 195075`, attained by `(0,0,0)` vs `(255,255,255)`. -/
theorem color_distance_sq_le_max {a b : Color}
    (ha : a.InRange) (hb : b.InRange) : color_distance_sq a b ≤ 195075 := by
  obtain ⟨har0, har1, hag0, hag1, hab0, hab1⟩ := ha
  obtain ⟨hbr0, hbr1, hbg0, hbg1, hbb0, hbb1⟩ := hb
  unfold color_distance_sq
  nlinarith [sq_nonneg (a.r - b.r), sq_nonneg (a.g - b.g), sq_nonneg (a.b - b.b)]

/-! ## Nearest-color scan and memoization cache -/

/-- The inner linear scan of the nearest-color search (source lines
1616–1623 / 1664–1671): starting from the running best candidate `best`
at squared distance `bestDist` from `c`, fold over the remaining
candidates, updating only on a strictly smaller distance (`d < best_dist`
in the source), so that on exact ties the earlier candidate wins. -/
def nearestFrom (c : Color) : Color → Int → List Color → Color
  | best, _, [] => best
  | best, bestDist, q :: rest =>
    if color_distance_sq c q < bestDist then
      nearestFrom c q (color_distance_sq c q) rest
    else
      nearestFrom c best bestDist rest

/-- The whole nearest-color computation: seeded with the first candidate
(`best = saved_colors[0]` / `pallette[0]` in the source), `none` on an
empty candidate list (the source only runs the scan on a non-empty
list). -/
def nearestIn (c : Color) : List Color → Option Color
  | [] => none
  | q :: rest => some (nearestFrom c q (color_distance_sq c q) rest)

/-- The memoization dict `nearest_cache`: the Python dict mapping an exact source color to a
previously computed nearest candidate, embedded as an association list
(insertions prepend; the engine only inserts a key it just failed to
find, so keys stay unique). -/
abbrev Cache := List (Color × Color)

/-- Lookup `nearest_cache.get(c)` — first binding of `c`, if any. -/
def cacheGet : Cache → Color → Option Color
  | [], _ => none
  | (k, v) :: rest, c => if c = k then some v else cacheGet rest c

/-- Eviction `nearest_cache.pop(c, None)` — remove the binding of `c`. -/
def cachePop : Cache → Color → Cache
  | [], _ => []
  | (k, v) :: rest, c => if k = c then cachePop rest c else (k, v) :: cachePop rest c

/-! ## Greedy palette discovery ("Simplify Pallette" mode) -/

/-- The mutable discovery-mode state: the growing palette
(`saved_colors`) and the memoization dict (`nearest_cache`). -/
structure GreedyState where
  saved_colors : List Color
  nearest_cache : Cache
deriving DecidableEq, Repr

/-- The discovery-mode per-pixel transition (source lines 1606–1635),
given the allowed squared distance `allowed_sq` (a real in the source,
embedded as an exact rational).  Returns the new state and the value
left at the pixel (the input color when the pixel is not rewritten). -/
def greedyStep (allowed_sq : ℚ) (s : GreedyState) (c : Color) :
    GreedyState × Color :=
  if c ∈ s.saved_colors then
    (s, c)
  else
    match s.saved_colors with
    | [] => ({ s with saved_colors := [c] }, c)
    | q :: rest =>
      let nc :=
        match cacheGet s.nearest_cache c with
        | some n => (n, s.nearest_cache)
        | none =>
          let n := nearestFrom c q (color_distance_sq c q) rest
          (n, (c, n) :: s.nearest_cache)
      if (color_distance_sq nc.1 c : ℚ) > allowed_sq then
        ({ saved_colors := (q :: rest) ++ [c], nearest_cache := cachePop nc.2 c }, c)
      else
        ({ s with nearest_cache := nc.2 }, nc.1)

/-- Batch publication (source lines 1637–1641 / 1674–1678,
`processed += 1; if processed % 5000 == 0: publish processed`): the
processed-pixel counts published after one more pixel. -/
def pubsAt (p : Nat) : List Nat :=
  if p % 5000 = 0 then [p] else []

/-- Result of a full (uncancelled) discovery run: final state, final
`processed` counter, the processed counts published at the 5000-pixel
batch boundaries, and the pixel values in visitation order. -/
structure GreedyResult where
  final : GreedyState
  processed : Nat
  published : List Nat
  output : List Color
deriving DecidableEq, Repr

/-- The discovery scan (source lines 1587–1641) over the pixels in
visitation order, without cancellation. -/
def greedyRun (allowed_sq : ℚ) (s : GreedyState) (processed : Nat) :
    List Color → GreedyResult
  | [] => ⟨s, processed, [], []⟩
  | c :: cs =>
    let sc := greedyStep allowed_sq s c
    let r := greedyRun allowed_sq sc.1 (processed + 1) cs
    ⟨r.final, r.processed, pubsAt (processed + 1) ++ r.published, sc.2 :: r.output⟩

/-! ## Fixed-palette mode -/

/-- The fixed-palette per-pixel transition (source lines 1658–1673):
with a non-empty palette, replace the pixel by the memoized nearest
palette entry; with an empty palette (`if pallette:` false) leave the
pixel alone.  Returns the new cache and the pixel value. -/
def fixedStep (pallette : List Color) (cache : Cache) (c : Color) :
    Cache × Color :=
  match pallette with
  | [] => (cache, c)
  | q :: rest =>
    match cacheGet cache c with
    | some n => (cache, n)
    | none =>
      let n := nearestFrom c q (color_distance_sq c q) rest
      ((c, n) :: cache, n)

/-- Result of a full (uncancelled) fixed-palette run. -/
structure FixedResult where
  cache : Cache
  processed : Nat
  published : List Nat
  output : List Color
deriving DecidableEq, Repr

/-- The fixed-palette raster scan (source lines 1650–1678) over the
pixels in visitation order, without cancellation. -/
def fixedRun (pallette : List Color) (cache : Cache) (processed : Nat) :
    List Color → FixedResult
  | [] => ⟨cache, processed, [], []⟩
  | c :: cs =>
    let cc := fixedStep pallette cache c
    let r := fixedRun pallette cc.1 (processed + 1) cs
    ⟨r.cache, r.processed, pubsAt (processed + 1) ++ r.published, cc.2 :: r.output⟩

/-- The divisor used for percentage reporting in fixed-palette mode:
`total = width * height if pallette else 1` (source line 1648). -/
def fixed_total (pallette : List Color) (width height : Nat) : Nat :=
  if pallette = [] then 1 else width * height

/-! ## Cancellation protocol -/

/-- Terminal outcome of a run: `analyze_done` vs `analyze_canceled`
(source lines 1682–1695). -/
inductive Outcome
  | completed
  | canceled
deriving DecidableEq, Repr

/-- Requesting cancellation (`_cancel_event.set()`, source lines
425 / 587) sets the flag unconditionally; it is total (never raises)
and idempotent. -/
def request_cancel (_flag : Bool) : Bool := true

/-- The poll `_cancel_event.is_set()` consulted by the worker. -/
def is_canceled (flag : Bool) : Bool := flag

/-- A cancellation schedule: the value the worker's `is_set()` poll
observes just before processing its (i+1)-st pixel.  `threading.Event`
is one-way within a run (cleared only before the run starts), so a
schedule produced by a concurrent `request_cancel` is monotone. -/
def CancelMono (cancel : Nat → Bool) : Prop :=
  ∀ i j, i ≤ j → cancel i = true → cancel j = true

/-- Result of a cancellable discovery run, including the processed
counts published at the batch boundaries reached before termination. -/
structure GreedyCResult where
  outcome : Outcome
  final : GreedyState
  processed : Nat
  published : List Nat
  output : List Color
deriving DecidableEq, Repr

/-- The discovery scan with its per-pixel cancellation poll (source
line 1603; the additional polls at tile-row and tile-column boundaries,
lines 1588 and 1593, re-test the same monotone flag immediately after a
pixel-level poll and are subsumed by it) and its batch publications
(lines 1637–1641).  On cancellation the scan stops and the
still-unvisited pixels keep their input colors. -/
def greedyRunC (cancel : Nat → Bool) (allowed_sq : ℚ) (s : GreedyState)
    (processed : Nat) : List Color → GreedyCResult
  | [] => ⟨.completed, s, processed, [], []⟩
  | c :: cs =>
    if is_canceled (cancel processed) then ⟨.canceled, s, processed, [], c :: cs⟩
    else
      let sc := greedyStep allowed_sq s c
      let r := greedyRunC cancel allowed_sq sc.1 (processed + 1) cs
      ⟨r.outcome, r.final, r.processed, pubsAt (processed + 1) ++ r.published,
        sc.2 :: r.output⟩

/-- Result of a cancellable fixed-palette run, including the processed
counts published at the batch boundaries reached before termination. -/
structure FixedCResult where
  outcome : Outcome
  cache : Cache
  processed : Nat
  published : List Nat
  output : List Color
deriving DecidableEq, Repr

/-- The fixed-palette scan with its per-pixel cancellation poll (source
line 1655; the per-row poll at line 1651 is subsumed as above) and its
batch publications (lines 1674–1678). -/
def fixedRunC (cancel : Nat → Bool) (pallette : List Color) (cache : Cache)
    (processed : Nat) : List Color → FixedCResult
  | [] => ⟨.completed, cache, processed, [], []⟩
  | c :: cs =>
    if is_canceled (cancel processed) then ⟨.canceled, cache, processed, [], c :: cs⟩
    else
      let cc := fixedStep pallette cache c
      let r := fixedRunC cancel pallette cc.1 (processed + 1) cs
      ⟨r.outcome, r.cache, r.processed, pubsAt (processed + 1) ++ r.published,
        cc.2 :: r.output⟩

/-! ## The worker entry point -/

/-- Which quantizer the worker runs: `app.get_pallette()` equal to
`"Simplify Pallette"` selects discovery with the configured allowed
squared distance; any other selection looks up a fixed palette. -/
inductive Mode
  | simplify (allowed_sq : ℚ)
  | fixedPalette (pallette : List Color)

/-- The images held by the application across a run. -/
structure AppImages where
  original_image : List Color
  converted_image : Option (List Color)
deriving DecidableEq, Repr

/-- The worker `analyze_image_worker` (source lines 1548–1695) at the level of the
application's images.  Line 1559 copies the original image
(`new_image = app.original_image.copy()`) and the scan mutates only the
copy; a completed run hands the copy to `analyze_done` (line 1695),
which installs it as `converted_image`, while a canceled run returns
without touching the images (lines 1682–1688). -/
def analyze_image_worker (mode : Mode) (cancel : Nat → Bool)
    (app : AppImages) : AppImages × Outcome :=
  let new_image := app.original_image
  match mode with
  | .simplify allowed_sq =>
    let r := greedyRunC cancel allowed_sq ⟨[], []⟩ 0 new_image
    match r.outcome with
    | .canceled => (app, .canceled)
    | .completed => ({ app with converted_image := some r.output }, .completed)
  | .fixedPalette pallette =>
    let r := fixedRunC cancel pallette [] 0 new_image
    match r.outcome with
    | .canceled => (app, .canceled)
    | .completed => ({ app with converted_image := some r.output }, .completed)

/-! ## The threshold-derived allowed distance

The source computes (lines 20–21, 1570–1572, in IEEE-754 doubles)
`max_distance = math.sqrt(255**2 * 3)`,
`allowed_distance = (1.0 - similarity_threshold/100.0) * max_distance`,
`allowed_sq = allowed_distance * allowed_distance`.
At `similarity_threshold = 0` the multiplier is exactly `1.0`, so
`allowed_sq` is the double `fl(fl(√195075)²)`.  We embed the two doubles
as their exact rational values and verify the roundings below:
`fl(√195075) = 3884996405754415 / 2^43` and `fl(fl(√195075)²) = 195075`
exactly. -/

/-- The IEEE-754 double `math.sqrt(255**2 * 3)` as an exact rational
(significand `3884996405754415`, exponent bringing it into
`[2^8, 2^9)`). -/
def fl_sqrt_max_distance : ℚ := 3884996405754415 / 2 ^ 43

/-- The constant `fl_sqrt_max_distance` is the correctly rounded double of
`√195075`: the real square root lies strictly within half an ulp
(`2^{-45}` at this magnitude) of it. -/
theorem fl_sqrt_max_distance_correct :
    (fl_sqrt_max_distance - 1 / 2 ^ 45) ^ 2 < 195075 ∧
    (195075 : ℚ) < (fl_sqrt_max_distance + 1 / 2 ^ 45) ^ 2 := by
  constructor <;> norm_num [fl_sqrt_max_distance]

/-- The allowed squared distance at `similarity_threshold = 0`: the
IEEE-754 double `fl_sqrt_max_distance * fl_sqrt_max_distance`, which
rounds to exactly `195075` (the exact product lies strictly within half
an ulp, `2^{-36}` at this magnitude, of `195075`, as
`fl_sqrt_sq_rounds_to_195075` verifies). -/
def allowed_sq_threshold0 : ℚ := 195075

/-- The exact product `fl_sqrt_max_distance²` lies strictly within half
an ulp of `195075`, so the double product rounds to
`allowed_sq_threshold0` exactly. -/
theorem fl_sqrt_sq_rounds_to_195075 :
    |fl_sqrt_max_distance ^ 2 - allowed_sq_threshold0| < 1 / 2 ^ 36 := by
  rw [abs_lt]
  constructor <;> norm_num [fl_sqrt_max_distance, allowed_sq_threshold0]

/-! ## Properties of the nearest-color scan -/

theorem nearestFrom_mem (c best : Color) (bd : Int) (rest : List Color) :
    nearestFrom c best bd rest ∈ best :: rest := by
  induction rest generalizing best bd with
  | nil => simp [nearestFrom]
  | cons q rest ih =>
    rw [nearestFrom]
    by_cases h : color_distance_sq c q < bd
    · rw [if_pos h]
      rcases List.mem_cons.mp (ih q (color_distance_sq c q)) with h' | h'
      · rw [h']; exact List.mem_cons_of_mem _ (List.mem_cons_self _ _)
      · exact List.mem_cons_of_mem _ (List.mem_cons_of_mem _ h')
    · rw [if_neg h]
      rcases List.mem_cons.mp (ih best bd) with h' | h'
      · rw [h']; exact List.mem_cons_self _ _
      · exact List.mem_cons_of_mem _ (List.mem_cons_of_mem _ h')

theorem nearestFrom_min (c : Color) (best : Color) (rest : List Color) :
    ∀ q ∈ best :: rest,
      color_distance_sq c (nearestFrom c best (color_distance_sq c best) rest) ≤
        color_distance_sq c q := by
  induction rest generalizing best with
  | nil =>
    intro q hq
    rcases List.mem_cons.mp hq with h | h
    · rw [h]; simp [nearestFrom]
    · exact absurd h (List.not_mem_nil _)
  | cons p rest ih =>
    intro q hq
    rw [nearestFrom]
    by_cases h : color_distance_sq c p < color_distance_sq c best
    · rw [if_pos h]
      rcases List.mem_cons.mp hq with h' | h'
      · subst h'
        exact le_of_lt (lt_of_le_of_lt (ih p p (List.mem_cons_self _ _)) h)
      · exact ih p q h'
    · rw [if_neg h]
      rcases List.mem_cons.mp hq with h' | h'
      · exact h' ▸ ih best best (List.mem_cons_self _ _)
      · rcases List.mem_cons.mp h' with h'' | h''
        · subst h''
          exact le_trans (ih best best (List.mem_cons_self _ _)) (not_lt.mp h)
        · exact ih best q (List.mem_cons_of_mem _ h'')

theorem nearestFrom_first (c best : Color) (rest : List Color) :
    ∃ pre post,
      best :: rest = pre ++ nearestFrom c best (color_distance_sq c best) rest :: post ∧
      ∀ q ∈ pre,
        color_distance_sq c (nearestFrom c best (color_distance_sq c best) rest) <
          color_distance_sq c q := by
  induction rest generalizing best with
  | nil => exact ⟨[], [], by simp [nearestFrom], by simp⟩
  | cons p rest ih =>
    rw [nearestFrom]
    by_cases h : color_distance_sq c p < color_distance_sq c best
    · rw [if_pos h]
      obtain ⟨pre', post', heq, hpre'⟩ := ih p
      refine ⟨best :: pre', post', by rw [List.cons_append, ← heq], ?_⟩
      intro q hq
      rcases List.mem_cons.mp hq with h' | h'
      · subst h'
        exact lt_of_le_of_lt (nearestFrom_min c p rest p (List.mem_cons_self _ _)) h
      · exact hpre' q h'
    · rw [if_neg h]
      obtain ⟨pre', post', heq, hpre'⟩ := ih best
      match pre', heq with
      | [], heq =>
        rw [List.nil_append] at heq
        obtain ⟨h1, _⟩ := List.cons.injEq .. ▸ heq
        exact ⟨[], p :: rest, by rw [List.nil_append, ← h1], by simp⟩
      | b :: pre'', heq =>
        rw [List.cons_append] at heq
        obtain ⟨h1, h2⟩ := List.cons.injEq .. ▸ heq
        refine ⟨best :: p :: pre'', post', ?_, ?_⟩
        · rw [List.cons_append, List.cons_append, ← h2]
        · intro q hq
          rcases List.mem_cons.mp hq with h' | h'
          · subst h'
            exact hpre' q (h1 ▸ List.mem_cons_self _ _)
          · rcases List.mem_cons.mp h' with h'' | h''
            · subst h''
              calc color_distance_sq c (nearestFrom c best (color_distance_sq c best) rest)
                  < color_distance_sq c best :=
                    hpre' best (h1 ▸ List.mem_cons_self _ _)
                _ ≤ color_distance_sq c q := not_lt.mp h
            · exact hpre' q (List.mem_cons_of_mem _ h'')

/-- The per-pixel result of fixed-palette mode on one color: the
nearest palette entry, or the color itself when the palette is empty. -/
def quantize (pallette : List Color) (c : Color) : Color :=
  match nearestIn c pallette with
  | none => c
  | some n => n

/-- A cache is consistent with a candidate set when every binding
records that set's true nearest candidate.  In fixed-palette mode the
candidate set never changes, so consistency is preserved. -/
def cacheGood (pallette : List Color) (cache : Cache) : Prop :=
  ∀ k v, cacheGet cache k = some v → nearestIn k pallette = some v

theorem fixedStep_quantize (pallette : List Color) (cache : Cache) (c : Color)
    (h : cacheGood pallette cache) :
    (fixedStep pallette cache c).2 = quantize pallette c ∧
      cacheGood pallette (fixedStep pallette cache c).1 := by
  cases pallette with
  | nil => exact ⟨rfl, h⟩
  | cons q rest =>
    cases hcg : cacheGet cache c with
    | some n =>
      have hn := h c n hcg
      constructor
      · simp [fixedStep, hcg, quantize, hn]
      · simpa [fixedStep, hcg] using h
    | none =>
      constructor
      · simp [fixedStep, hcg, quantize, nearestIn]
      · simp only [fixedStep, hcg]
        intro k v hkv
        simp only [cacheGet] at hkv
        by_cases hk : k = c
        · subst hk
          rw [if_pos rfl] at hkv
          cases hkv
          rfl
        · rw [if_neg hk] at hkv
          exact h k v hkv

theorem fixedRun_quantize (pallette : List Color) (cache : Cache) (p : Nat)
    (cs : List Color) (h : cacheGood pallette cache) :
    (fixedRun pallette cache p cs).output = cs.map (quantize pallette) ∧
      cacheGood pallette (fixedRun pallette cache p cs).cache := by
  induction cs generalizing cache p with
  | nil => exact ⟨rfl, h⟩
  | cons c cs ih =>
    obtain ⟨h1, h2⟩ := fixedStep_quantize pallette cache c h
    obtain ⟨ih1, ih2⟩ := ih (fixedStep pallette cache c).1 (p + 1) h2
    constructor
    · simp [fixedRun, ih1, h1]
    · simpa [fixedRun] using ih2

theorem cacheGood_nil (pallette : List Color) : cacheGood pallette [] := by
  intro k v h
  cases h

theorem quantize_mem_self (pallette : List Color) (p : Color)
    (hp : p ∈ pallette) : quantize pallette p = p := by
  cases pallette with
  | nil => rfl
  | cons q rest =>
    have hmin := nearestFrom_min p q rest p hp
    have h0 : color_distance_sq p p = 0 := by unfold color_distance_sq; ring
    have hz : color_distance_sq p (nearestFrom p q (color_distance_sq p q) rest) = 0 :=
      le_antisymm (h0 ▸ hmin) (color_distance_sq_nonneg _ _)
    have hpq := color_distance_sq_eq_zero hz
    simp [quantize, nearestIn, ← hpq]

theorem quantize_idem (pallette : List Color) (c : Color) :
    quantize pallette (quantize pallette c) = quantize pallette c := by
  cases pallette with
  | nil => rfl
  | cons q rest =>
    exact quantize_mem_self _ _
      (by simpa [quantize, nearestIn] using nearestFrom_mem c q (color_distance_sq c q) rest)

/-! ## Claims about the distance metric and fixed-palette mode -/

/-- C9: `color_distance_sq` is symmetric, zero on equal colors, and
is literally the exact integer sum of squared per-channel differences
(no rounding, no floating point). -/
theorem distance_sq_symm_zero_exact (a b : Color) :
    color_distance_sq a b = color_distance_sq b a ∧
      color_distance_sq a a = 0 ∧
      color_distance_sq a b =
        (a.r - b.r) ^ 2 + (a.g - b.g) ^ 2 + (a.b - b.b) ^ 2 := by
  refine ⟨?_, ?_, rfl⟩
  · unfold color_distance_sq; ring
  · unfold color_distance_sq; ring

/-- C5: fixed-palette mode invoked with an empty palette is a no-op
success: every pixel is left unchanged over the whole run, and the
progress divisor is taken as `1` instead of `width * height`. -/
theorem empty_fixed_palette_noop (cache : Cache) (p : Nat) (cs : List Color)
    (width height : Nat) :
    (fixedRun [] cache p cs).output = cs ∧ fixed_total [] width height = 1 := by
  constructor
  · induction cs generalizing cache p with
    | nil => rfl
    | cons c cs ih => simp [fixedRun, fixedStep, ih]
  · rfl

/-- C2: in fixed-palette mode with a non-empty palette, every
output pixel is a palette entry at minimal squared distance from the
original pixel color, and every strictly earlier palette entry is at
strictly greater distance (first minimum wins on exact ties). -/
theorem fixed_palette_nearest_correct (pallette cs : List Color)
    (hpal : pallette ≠ []) (i : Nat) (c p' : Color)
    (hc : cs.get? i = some c)
    (hp' : (fixedRun pallette [] 0 cs).output.get? i = some p') :
    p' ∈ pallette ∧
      (¬ ∃ q ∈ pallette, color_distance_sq c q < color_distance_sq c p') ∧
      ∃ pre post, pallette = pre ++ p' :: post ∧
        ∀ q ∈ pre, color_distance_sq c p' < color_distance_sq c q := by
  obtain ⟨hout, -⟩ := fixedRun_quantize pallette [] 0 cs (cacheGood_nil _)
  rw [hout, List.get?_map, hc] at hp'
  obtain ⟨q, rest, rfl⟩ : ∃ q rest, pallette = q :: rest := by
    cases pallette with
    | nil => exact absurd rfl hpal
    | cons q rest => exact ⟨q, rest, rfl⟩
  have hp'' : p' = nearestFrom c q (color_distance_sq c q) rest := by
    have : quantize (q :: rest) c = p' := by simpa using hp'
    rw [← this]
    simp [quantize, nearestIn]
  subst hp''
  refine ⟨nearestFrom_mem c q (color_distance_sq c q) rest, ?_,
    nearestFrom_first c q rest⟩
  rintro ⟨q', hq', hlt⟩
  exact absurd hlt (not_lt.mpr (nearestFrom_min c q rest q' hq'))

/-- Witness for **C2** at Scenario D: palette
`[(0,0,0), (255,255,255)]`, single pixel `(10,10,10)`; the output pixel
is `(0,0,0)`. -/
theorem fixed_palette_nearest_correct_witness :
    (⟨0, 0, 0⟩ : Color) ∈ [(⟨0, 0, 0⟩ : Color), ⟨255, 255, 255⟩] ∧
      (¬ ∃ q ∈ [(⟨0, 0, 0⟩ : Color), ⟨255, 255, 255⟩],
        color_distance_sq ⟨10, 10, 10⟩ q <
          color_distance_sq ⟨10, 10, 10⟩ ⟨0, 0, 0⟩) ∧
      ∃ pre post,
        [(⟨0, 0, 0⟩ : Color), ⟨255, 255, 255⟩] = pre ++ (⟨0, 0, 0⟩ : Color) :: post ∧
        ∀ q ∈ pre,
          color_distance_sq ⟨10, 10, 10⟩ ⟨0, 0, 0⟩ <
            color_distance_sq ⟨10, 10, 10⟩ q :=
  fixed_palette_nearest_correct [⟨0, 0, 0⟩, ⟨255, 255, 255⟩] [⟨10, 10, 10⟩]
    (by simp) 0 ⟨10, 10, 10⟩ ⟨0, 0, 0⟩ rfl (by decide)

/-- C4: fixed-palette quantization with a non-empty palette is
idempotent — re-running the quantizer on its own output (each run
starting from the engine's fresh empty cache) reproduces that output. -/
theorem fixed_palette_idempotent (pallette cs : List Color)
    (hpal : pallette ≠ []) :
    (fixedRun pallette [] 0 (fixedRun pallette [] 0 cs).output).output =
      (fixedRun pallette [] 0 cs).output := by
  obtain ⟨h1, -⟩ := fixedRun_quantize pallette [] 0 cs (cacheGood_nil _)
  obtain ⟨h2, -⟩ :=
    fixedRun_quantize pallette [] 0 ((fixedRun pallette [] 0 cs).output)
      (cacheGood_nil _)
  rw [h2, h1, List.map_map]
  exact List.map_congr_left fun c _ => quantize_idem pallette c

/-- Witness for **C4**: palette `[(0,0,0)]`, single pixel `(5,5,5)`. -/
theorem fixed_palette_idempotent_witness :
    (fixedRun [(⟨0, 0, 0⟩ : Color)] [] 0
        (fixedRun [(⟨0, 0, 0⟩ : Color)] [] 0 [⟨5, 5, 5⟩]).output).output =
      (fixedRun [(⟨0, 0, 0⟩ : Color)] [] 0 [⟨5, 5, 5⟩]).output :=
  fixed_palette_idempotent [⟨0, 0, 0⟩] [⟨5, 5, 5⟩] (by simp)

/-! ## The discovery transition against the specification's wording -/

/-- The nearest palette entry as the specification words it: the first
candidate (in palette order) whose squared distance to `c` is minimal
over the whole candidate set — "first minimum wins". -/
def specNearest (c : Color) (pallette : List Color) : Option Color :=
  pallette.find? fun q =>
    pallette.all fun p => decide (color_distance_sq c q ≤ color_distance_sq c p)

theorem find?_eq_of_prefix_false {α : Type} (p : α → Bool) (pre l : List α)
    (h : ∀ x ∈ pre, p x = false) : (pre ++ l).find? p = l.find? p := by
  induction pre with
  | nil => rfl
  | cons a pre ih =>
    rw [List.cons_append, List.find?_cons, h a (List.mem_cons_self _ _)]
    exact ih fun x hx => h x (List.mem_cons_of_mem _ hx)

/-- The linear scan of the source computes exactly the specification's
first global minimizer. -/
theorem nearestIn_eq_specNearest (c : Color) (pallette : List Color) :
    nearestIn c pallette = specNearest c pallette := by
  cases pallette with
  | nil => rfl
  | cons q rest =>
    obtain ⟨pre, post, heq, hpre⟩ := nearestFrom_first c q rest
    have hmin := nearestFrom_min c q rest
    show some (nearestFrom c q (color_distance_sq c q) rest) = specNearest c (q :: rest)
    set n := nearestFrom c q (color_distance_sq c q) rest with hn
    unfold specNearest
    rw [heq]
    have hfalse : ∀ x ∈ pre,
        ((pre ++ n :: post).all fun p =>
          decide (color_distance_sq c x ≤ color_distance_sq c p)) = false := by
      intro x hx
      refine Bool.eq_false_iff.mpr fun hall => ?_
      rw [List.all_eq_true] at hall
      have hxn := hall n (List.mem_append_right _ (List.mem_cons_self _ _))
      rw [decide_eq_true_eq] at hxn
      exact absurd hxn (not_le.mpr (hpre x hx))
    have htrue :
        ((pre ++ n :: post).all fun p =>
          decide (color_distance_sq c n ≤ color_distance_sq c p)) = true := by
      rw [List.all_eq_true]
      intro p hp
      rw [decide_eq_true_eq]
      exact hmin p (heq ▸ hp)
    rw [find?_eq_of_prefix_false _ pre _ hfalse, List.find?_cons, htrue]

/-- The discovery per-pixel transition as claimed: exact palette member
⇒ no-op; empty palette ⇒ seed with `c`, pixel untouched; otherwise take
the nearest entry from the cache or compute (and cache) the first
global minimizer, then either append `c` and evict `c`'s cache binding
(when the distance exceeds the allowed one) or overwrite the pixel with
the nearest entry, leaving the palette unchanged. -/
def greedyStepSpec (allowed_sq : ℚ) (s : GreedyState) (c : Color) :
    GreedyState × Color :=
  if c ∈ s.saved_colors then
    (s, c)
  else
    match s.saved_colors with
    | [] => ({ s with saved_colors := [c] }, c)
    | q :: rest =>
      let nc :=
        match cacheGet s.nearest_cache c with
        | some n => (n, s.nearest_cache)
        | none =>
          let n := (specNearest c (q :: rest)).getD c
          (n, (c, n) :: s.nearest_cache)
      if (color_distance_sq nc.1 c : ℚ) > allowed_sq then
        ({ saved_colors := (q :: rest) ++ [c], nearest_cache := cachePop nc.2 c }, c)
      else
        ({ s with nearest_cache := nc.2 }, nc.1)

/-- C1: every per-pixel step of discovery mode obeys the claimed
transition, for every state (palette and cache contents), every pixel
color and every allowed squared distance. -/
theorem greedy_step_follows_spec (allowed_sq : ℚ) (s : GreedyState) (c : Color) :
    greedyStep allowed_sq s c = greedyStepSpec allowed_sq s c := by
  obtain ⟨saved, cache⟩ := s
  unfold greedyStep greedyStepSpec
  by_cases hmem : c ∈ saved
  · simp [hmem]
  · simp only [hmem, if_false]
    cases saved with
    | nil => rfl
    | cons q rest =>
      have hns : (specNearest c (q :: rest)).getD c =
          nearestFrom c q (color_distance_sq c q) rest := by
        rw [← nearestIn_eq_specNearest]
        rfl
      cases hcg : cacheGet cache c with
      | some n => simp [hcg]
      | none => simp [hcg, hns]

/-! ## Discovery mode at threshold 0 -/

/-- With a singleton palette `[p]` whose only cache values are `p`, a
threshold-0 discovery run never grows the palette and writes `p`
everywhere: each step's nearest entry is `p`, and over 8-bit colors the
merge test `color_distance_sq ≤ 195075` always holds. -/
theorem greedyRun_singleton (p : Color) (hp : p.InRange) (cache : Cache)
    (hcache : ∀ k v, cacheGet cache k = some v → v = p)
    (processed : Nat) (cs : List Color) (hcs : ∀ x ∈ cs, Color.InRange x) :
    (greedyRun allowed_sq_threshold0 ⟨[p], cache⟩ processed cs).final.saved_colors = [p] ∧
      ∀ o ∈ (greedyRun allowed_sq_threshold0 ⟨[p], cache⟩ processed cs).output, o = p := by
  induction cs generalizing cache processed with
  | nil => exact ⟨rfl, by simp [greedyRun]⟩
  | cons c cs ih =>
    have hc : c.InRange := hcs c (List.mem_cons_self _ _)
    have hcs' : ∀ x ∈ cs, Color.InRange x := fun x hx => hcs x (List.mem_cons_of_mem _ hx)
    have hle : ¬((color_distance_sq p c : ℚ) > allowed_sq_threshold0) := by
      unfold allowed_sq_threshold0
      refine not_lt.mpr ?_
      exact_mod_cast color_distance_sq_le_max hp hc
    have hstep : ∃ cache',
        greedyStep allowed_sq_threshold0 ⟨[p], cache⟩ c = (⟨[p], cache'⟩, p) ∧
        ∀ k v, cacheGet cache' k = some v → v = p := by
      by_cases hmem : c ∈ [p]
      · have hcp : c = p := by simpa using hmem
        exact ⟨cache, by simp [greedyStep, hmem, hcp], hcache⟩
      · cases hcg : cacheGet cache c with
        | some n =>
          have hn : n = p := hcache c n hcg
          subst hn
          exact ⟨cache, by simp [greedyStep, hmem, hcg, hle], hcache⟩
        | none =>
          have hcp : ¬c = p := by simpa using hmem
          refine ⟨(c, p) :: cache, ?_, ?_⟩
          · simp [greedyStep, hmem, hcg, nearestFrom, hle, hcp]
          · intro k v hkv
            simp only [cacheGet] at hkv
            by_cases hk : k = c
            · subst hk
              rw [if_pos rfl] at hkv
              cases hkv
              rfl
            · rw [if_neg hk] at hkv
              exact hcache k v hkv
    obtain ⟨cache', hstep, hcache'⟩ := hstep
    obtain ⟨ih1, ih2⟩ := ih cache' hcache' (processed + 1) hcs'
    constructor
    · simpa [greedyRun, hstep] using ih1
    · intro o ho
      simp only [greedyRun, hstep] at ho
      rcases List.mem_cons.mp ho with h' | h'
      · exact h'
      · exact ih2 o h'

/-- C3: at similarity threshold 0 (allowed squared distance
`(sqrt(255²·3))²`, whose IEEE-754 value is exactly `195075`), discovery
collapses every 8-bit input onto the first visited color: the final
palette is exactly `[c]` for the first visited pixel color `c`, and
every pixel of the output equals `c`. -/
theorem threshold0_collapses (c : Color) (cs : List Color)
    (hrange : ∀ x ∈ c :: cs, Color.InRange x) :
    (greedyRun allowed_sq_threshold0 ⟨[], []⟩ 0 (c :: cs)).final.saved_colors = [c] ∧
      ∀ o ∈ (greedyRun allowed_sq_threshold0 ⟨[], []⟩ 0 (c :: cs)).output, o = c := by
  have hstep : greedyStep allowed_sq_threshold0 ⟨[], []⟩ c = (⟨[c], []⟩, c) := by
    simp [greedyStep]
  have hc : c.InRange := hrange c (List.mem_cons_self _ _)
  have hcs : ∀ x ∈ cs, Color.InRange x := fun x hx => hrange x (List.mem_cons_of_mem _ hx)
  obtain ⟨h1, h2⟩ := greedyRun_singleton c hc [] (by intro k v h; cases h) 1 cs hcs
  constructor
  · simpa [greedyRun, hstep] using h1
  · intro o ho
    simp only [greedyRun, hstep] at ho
    rcases List.mem_cons.mp ho with h' | h'
    · exact h'
    · exact h2 o h'

/-- Witness for **C3** at Scenario C: pixels `(0,0,0)` then `(1,1,1)`;
the palette ends as `[(0,0,0)]` and both output pixels equal it. -/
theorem threshold0_collapses_witness :
    (greedyRun allowed_sq_threshold0 ⟨[], []⟩ 0
        [(⟨0, 0, 0⟩ : Color), ⟨1, 1, 1⟩]).final.saved_colors = [⟨0, 0, 0⟩] ∧
      ∀ o ∈ (greedyRun allowed_sq_threshold0 ⟨[], []⟩ 0
        [(⟨0, 0, 0⟩ : Color), ⟨1, 1, 1⟩]).output, o = ⟨0, 0, 0⟩ :=
  threshold0_collapses ⟨0, 0, 0⟩ [⟨1, 1, 1⟩] (by decide)

/-! ## Uniqueness of the discovered palette -/

theorem greedyStep_nodup (allowed_sq : ℚ) (s : GreedyState) (c : Color)
    (h : s.saved_colors.Nodup) :
    (greedyStep allowed_sq s c).1.saved_colors.Nodup := by
  obtain ⟨saved, cache⟩ := s
  simp only [GreedyState.mk.injEq] at h ⊢
  unfold greedyStep
  by_cases hmem : c ∈ saved
  · simpa [hmem] using h
  · simp only [hmem, if_false]
    cases saved with
    | nil => simp
    | cons q rest =>
      have happ : ((q :: rest) ++ [c]).Nodup := by
        refine List.Nodup.append h (List.nodup_singleton c) ?_
        intro a ha hb
        rw [List.mem_singleton] at hb
        subst hb
        exact hmem ha
      cases hcg : cacheGet cache c with
      | some n =>
        simp only [hcg]
        by_cases htest : (color_distance_sq n c : ℚ) > allowed_sq
        · simpa [htest] using happ
        · simpa [htest] using h
      | none =>
        simp only [hcg]
        by_cases htest :
            (color_distance_sq (nearestFrom c q (color_distance_sq c q) rest) c : ℚ) > allowed_sq
        · simpa [htest] using happ
        · simpa [htest] using h

/-- C8: from any state whose palette has pairwise-distinct entries
(in particular the empty palette the run starts with, and hence every
intermediate state of a run), the discovered palette after processing
any further pixels still has pairwise-distinct entries: the engine only
appends a color after the exact-membership test has failed. -/
theorem discovered_palette_nodup (allowed_sq : ℚ) (s : GreedyState)
    (processed : Nat) (cs : List Color) (h : s.saved_colors.Nodup) :
    (greedyRun allowed_sq s processed cs).final.saved_colors.Nodup := by
  induction cs generalizing s processed with
  | nil => exact h
  | cons c cs ih =>
    simp only [greedyRun]
    exact ih _ _ (greedyStep_nodup allowed_sq s c h)

/-- Witness for **C8**: a concrete run from the initial empty state. -/
theorem discovered_palette_nodup_witness :
    (greedyRun 0 ⟨[], []⟩ 0
      [(⟨0, 0, 0⟩ : Color), ⟨255, 255, 255⟩, ⟨0, 0, 0⟩]).final.saved_colors.Nodup :=
  discovered_palette_nodup 0 ⟨[], []⟩ 0
    [⟨0, 0, 0⟩, ⟨255, 255, 255⟩, ⟨0, 0, 0⟩] List.nodup_nil

/-! ## Progress publication -/

/-- The processed counts published while visiting `n` pixels starting
from counter value `p`: one publication at each multiple of 5000. -/
def pubTrace : Nat → Nat → List Nat
  | _, 0 => []
  | p, n + 1 => pubsAt (p + 1) ++ pubTrace (p + 1) n

theorem greedyRun_published (allowed_sq : ℚ) (s : GreedyState) (p : Nat)
    (cs : List Color) :
    (greedyRun allowed_sq s p cs).published = pubTrace p cs.length := by
  induction cs generalizing s p with
  | nil => rfl
  | cons c cs ih => simp [greedyRun, pubTrace, ih]

theorem fixedRun_published (pallette : List Color) (cache : Cache) (p : Nat)
    (cs : List Color) :
    (fixedRun pallette cache p cs).published = pubTrace p cs.length := by
  induction cs generalizing cache p with
  | nil => rfl
  | cons c cs ih => simp [fixedRun, pubTrace, ih]

theorem pubTrace_mem {p n m : Nat} (h : m ∈ pubTrace p n) :
    p < m ∧ m ≤ p + n := by
  induction n generalizing p with
  | zero => cases h
  | succ n ih =>
    rw [pubTrace] at h
    rcases List.mem_append.mp h with h' | h'
    · unfold pubsAt at h'
      split at h'
      · rw [List.mem_singleton] at h'
        omega
      · cases h'
    · have := ih h'
      omega

theorem pubTrace_pairwise (p n : Nat) : (pubTrace p n).Pairwise (· < ·) := by
  induction n generalizing p with
  | zero => exact List.Pairwise.nil
  | succ n ih =>
    rw [pubTrace]
    refine List.pairwise_append.mpr ⟨?_, ih (p + 1), ?_⟩
    · unfold pubsAt
      split
      · exact List.pairwise_singleton _ _
      · exact List.Pairwise.nil
    · intro a ha b hb
      have hb' := (pubTrace_mem hb).1
      unfold pubsAt at ha
      split at ha
      · rw [List.mem_singleton] at ha
        omega
      · cases ha

theorem pubTrace_succ (p n : Nat) :
    pubTrace p (n + 1) = pubsAt (p + 1) ++ pubTrace (p + 1) n := rfl

/-- Shape of the published processed-count sequences: with `m ≤ n`
pixels processed out of `n`, both the sequence `0 :: pubTrace 0 m` of a
run stopped after `m` pixels and the completed-run sequence with the
final `[n]` appended are non-decreasing and bounded by `n`, and the
completed one ends exactly at `n`. -/
theorem counts_shape_props (m n : Nat) (hmn : m ≤ n) :
    List.Sorted (· ≤ ·) ((0 :: pubTrace 0 m) ++ [n]) ∧
      (∀ x ∈ (0 :: pubTrace 0 m) ++ [n], x ≤ n) ∧
      ((0 :: pubTrace 0 m) ++ [n]).getLast? = some n ∧
      List.Sorted (· ≤ ·) (0 :: pubTrace 0 m) ∧
      (∀ x ∈ 0 :: pubTrace 0 m, x ≤ n) := by
  have hmem : ∀ x ∈ pubTrace 0 m, 0 < x ∧ x ≤ m := by
    intro x hx
    have := pubTrace_mem hx
    omega
  refine ⟨?_, ?_, List.getLast?_concat _, ?_, ?_⟩
  · rw [List.cons_append, List.sorted_cons]
    constructor
    · intro b _
      exact Nat.zero_le b
    · refine List.pairwise_append.mpr ⟨?_, List.pairwise_singleton _ _, ?_⟩
      · exact (pubTrace_pairwise 0 m).imp le_of_lt
      · intro a ha b hb
        rw [List.mem_singleton] at hb
        subst hb
        exact le_trans (hmem a ha).2 hmn
  · intro x hx
    rw [List.cons_append, List.mem_cons] at hx
    rcases hx with h' | h'
    · omega
    · rcases List.mem_append.mp h' with h'' | h''
      · exact le_trans (hmem x h'').2 hmn
      · rw [List.mem_singleton] at h''
        omega
  · rw [List.sorted_cons]
    exact ⟨fun b _ => Nat.zero_le b, (pubTrace_pairwise 0 m).imp le_of_lt⟩
  · intro x hx
    rcases List.mem_cons.mp hx with h' | h'
    · omega
    · exact le_trans (hmem x h').2 hmn

/-- The full sequence of published processed-pixel counts of one run:
`processed_pixels = 0` at run start (source lines 1567–1568), then the
batch publications, and — only on the COMPLETED path — the final
`processed_pixels = total_pixels` publication (lines 1691–1693); the
CANCELED path returns without a final publication (lines 1682–1688). -/
def publishedCounts (outcome : Outcome) (published : List Nat) (total : Nat) :
    List Nat :=
  match outcome with
  | .completed => (0 :: published) ++ [total]
  | .canceled => 0 :: published

theorem publishedCounts_props (o : Outcome) (m n : Nat) (hmn : m ≤ n) :
    List.Sorted (· ≤ ·) (publishedCounts o (pubTrace 0 m) n) ∧
      (∀ x ∈ publishedCounts o (pubTrace 0 m) n, x ≤ n) ∧
      (publishedCounts Outcome.completed (pubTrace 0 m) n).getLast? = some n := by
  obtain ⟨h1, h2, h3, h4, h5⟩ := counts_shape_props m n hmn
  cases o with
  | completed => exact ⟨h1, h2, h3⟩
  | canceled => exact ⟨h4, h5, h3⟩

/-- In a cancellable discovery run the counter never decreases below
its start, never exceeds start plus pixel count, and the batch
publications are exactly the multiples of 5000 passed by the counter. -/
theorem greedyRunC_bounds (cancel : Nat → Bool) (allowed_sq : ℚ)
    (s : GreedyState) (p : Nat) (cs : List Color) :
    p ≤ (greedyRunC cancel allowed_sq s p cs).processed ∧
      (greedyRunC cancel allowed_sq s p cs).processed ≤ p + cs.length ∧
      (greedyRunC cancel allowed_sq s p cs).published =
        pubTrace p ((greedyRunC cancel allowed_sq s p cs).processed - p) := by
  induction cs generalizing s p with
  | nil => exact ⟨le_refl p, by simp [greedyRunC], by simp [greedyRunC, pubTrace]⟩
  | cons c cs ih =>
    by_cases hc : cancel p = true
    · refine ⟨?_, ?_, ?_⟩ <;> simp [greedyRunC, is_canceled, hc, pubTrace]
    · have hred : greedyRunC cancel allowed_sq s p (c :: cs) =
          ⟨(greedyRunC cancel allowed_sq (greedyStep allowed_sq s c).1 (p + 1) cs).outcome,
           (greedyRunC cancel allowed_sq (greedyStep allowed_sq s c).1 (p + 1) cs).final,
           (greedyRunC cancel allowed_sq (greedyStep allowed_sq s c).1 (p + 1) cs).processed,
           pubsAt (p + 1) ++
             (greedyRunC cancel allowed_sq (greedyStep allowed_sq s c).1 (p + 1) cs).published,
           (greedyStep allowed_sq s c).2 ::
             (greedyRunC cancel allowed_sq (greedyStep allowed_sq s c).1 (p + 1) cs).output⟩ := by
        simp [greedyRunC, is_canceled, hc]
      obtain ⟨ih1, ih2, ih3⟩ := ih (greedyStep allowed_sq s c).1 (p + 1)
      rw [hred]
      dsimp only
      refine ⟨by omega, by simp only [List.length_cons]; omega, ?_⟩
      have hsub :
          (greedyRunC cancel allowed_sq (greedyStep allowed_sq s c).1 (p + 1) cs).processed - p =
          ((greedyRunC cancel allowed_sq (greedyStep allowed_sq s c).1 (p + 1) cs).processed -
            (p + 1)) + 1 := by omega
      rw [ih3, hsub, pubTrace_succ]

/-- Counterpart of `greedyRunC_bounds` for the fixed-palette scan. -/
theorem fixedRunC_bounds (cancel : Nat → Bool) (pallette : List Color)
    (cache : Cache) (p : Nat) (cs : List Color) :
    p ≤ (fixedRunC cancel pallette cache p cs).processed ∧
      (fixedRunC cancel pallette cache p cs).processed ≤ p + cs.length ∧
      (fixedRunC cancel pallette cache p cs).published =
        pubTrace p ((fixedRunC cancel pallette cache p cs).processed - p) := by
  induction cs generalizing cache p with
  | nil => exact ⟨le_refl p, by simp [fixedRunC], by simp [fixedRunC, pubTrace]⟩
  | cons c cs ih =>
    by_cases hc : cancel p = true
    · refine ⟨?_, ?_, ?_⟩ <;> simp [fixedRunC, is_canceled, hc, pubTrace]
    · have hred : fixedRunC cancel pallette cache p (c :: cs) =
          ⟨(fixedRunC cancel pallette (fixedStep pallette cache c).1 (p + 1) cs).outcome,
           (fixedRunC cancel pallette (fixedStep pallette cache c).1 (p + 1) cs).cache,
           (fixedRunC cancel pallette (fixedStep pallette cache c).1 (p + 1) cs).processed,
           pubsAt (p + 1) ++
             (fixedRunC cancel pallette (fixedStep pallette cache c).1 (p + 1) cs).published,
           (fixedStep pallette cache c).2 ::
             (fixedRunC cancel pallette (fixedStep pallette cache c).1 (p + 1) cs).output⟩ := by
        simp [fixedRunC, is_canceled, hc]
      obtain ⟨ih1, ih2, ih3⟩ := ih (fixedStep pallette cache c).1 (p + 1)
      rw [hred]
      dsimp only
      refine ⟨by omega, by simp only [List.length_cons]; omega, ?_⟩
      have hsub :
          (fixedRunC cancel pallette (fixedStep pallette cache c).1 (p + 1) cs).processed - p =
          ((fixedRunC cancel pallette (fixedStep pallette cache c).1 (p + 1) cs).processed -
            (p + 1)) + 1 := by omega
      rw [ih3, hsub, pubTrace_succ]

/-- C6: within a single run of either mode, under any cancellation
schedule — so for runs ending COMPLETED and runs ending CANCELED alike
— the successively published processed-pixel counts (`0` at run start,
`processed` at each 5000-pixel batch, plus the final `total_pixels`
publication on the COMPLETED path) are non-decreasing and never exceed
the total pixel count fixed at run start to the grid size; and on a
COMPLETED outcome the last published count equals that total.  The
same holds for the uncancelled scans. -/
theorem progress_monotone_bounded (allowed_sq : ℚ) (pallette cs : List Color)
    (cancel : Nat → Bool) :
    (List.Sorted (· ≤ ·)
        (publishedCounts (greedyRunC cancel allowed_sq ⟨[], []⟩ 0 cs).outcome
          (greedyRunC cancel allowed_sq ⟨[], []⟩ 0 cs).published cs.length) ∧
      (∀ m ∈ publishedCounts (greedyRunC cancel allowed_sq ⟨[], []⟩ 0 cs).outcome
          (greedyRunC cancel allowed_sq ⟨[], []⟩ 0 cs).published cs.length,
        m ≤ cs.length) ∧
      ((greedyRunC cancel allowed_sq ⟨[], []⟩ 0 cs).outcome = Outcome.completed →
        (publishedCounts (greedyRunC cancel allowed_sq ⟨[], []⟩ 0 cs).outcome
          (greedyRunC cancel allowed_sq ⟨[], []⟩ 0 cs).published cs.length).getLast? =
          some cs.length)) ∧
    (List.Sorted (· ≤ ·)
        (publishedCounts (fixedRunC cancel pallette [] 0 cs).outcome
          (fixedRunC cancel pallette [] 0 cs).published cs.length) ∧
      (∀ m ∈ publishedCounts (fixedRunC cancel pallette [] 0 cs).outcome
          (fixedRunC cancel pallette [] 0 cs).published cs.length,
        m ≤ cs.length) ∧
      ((fixedRunC cancel pallette [] 0 cs).outcome = Outcome.completed →
        (publishedCounts (fixedRunC cancel pallette [] 0 cs).outcome
          (fixedRunC cancel pallette [] 0 cs).published cs.length).getLast? =
          some cs.length)) ∧
    (List.Sorted (· ≤ ·)
        ((0 :: (greedyRun allowed_sq ⟨[], []⟩ 0 cs).published) ++ [cs.length]) ∧
      (∀ m ∈ (0 :: (greedyRun allowed_sq ⟨[], []⟩ 0 cs).published) ++ [cs.length],
        m ≤ cs.length) ∧
      ((0 :: (greedyRun allowed_sq ⟨[], []⟩ 0 cs).published) ++ [cs.length]).getLast? =
        some cs.length) ∧
    (List.Sorted (· ≤ ·)
        ((0 :: (fixedRun pallette [] 0 cs).published) ++ [cs.length]) ∧
      (∀ m ∈ (0 :: (fixedRun pallette [] 0 cs).published) ++ [cs.length],
        m ≤ cs.length) ∧
      ((0 :: (fixedRun pallette [] 0 cs).published) ++ [cs.length]).getLast? =
        some cs.length) := by
  obtain ⟨hg1, hg2, hg3⟩ := greedyRunC_bounds cancel allowed_sq ⟨[], []⟩ 0 cs
  obtain ⟨hf1, hf2, hf3⟩ := fixedRunC_bounds cancel pallette [] 0 cs
  rw [Nat.sub_zero] at hg3 hf3
  obtain ⟨hgc1, hgc2, hgc3⟩ := publishedCounts_props
    (greedyRunC cancel allowed_sq ⟨[], []⟩ 0 cs).outcome
    (greedyRunC cancel allowed_sq ⟨[], []⟩ 0 cs).processed cs.length (by omega)
  rw [← hg3] at hgc1 hgc2 hgc3
  obtain ⟨hfc1, hfc2, hfc3⟩ := publishedCounts_props
    (fixedRunC cancel pallette [] 0 cs).outcome
    (fixedRunC cancel pallette [] 0 cs).processed cs.length (by omega)
  rw [← hf3] at hfc1 hfc2 hfc3
  refine ⟨⟨hgc1, hgc2, ?_⟩, ⟨hfc1, hfc2, ?_⟩, ?_, ?_⟩
  · intro hco
    rw [hco]
    exact hgc3
  · intro hco
    rw [hco]
    exact hfc3
  · obtain ⟨ho1, ho2, ho3, -, -⟩ := counts_shape_props cs.length cs.length le_rfl
    rw [greedyRun_published]
    exact ⟨ho1, ho2, ho3⟩
  · obtain ⟨ho1, ho2, ho3, -, -⟩ := counts_shape_props cs.length cs.length le_rfl
    rw [fixedRun_published]
    exact ⟨ho1, ho2, ho3⟩

/-- Witness for C6: a discovery run on one pixel canceled at the very
first poll — its published sequence (just the initial `0`) is
non-decreasing. -/
theorem progress_monotone_bounded_witness :
    List.Sorted (· ≤ ·)
      (publishedCounts
        (greedyRunC (fun _ => true) 0 ⟨[], []⟩ 0 [(⟨0, 0, 0⟩ : Color)]).outcome
        (greedyRunC (fun _ => true) 0 ⟨[], []⟩ 0 [(⟨0, 0, 0⟩ : Color)]).published 1) :=
  (progress_monotone_bounded 0 [] [⟨0, 0, 0⟩] (fun _ => true)).1.1

/-! ## Cancellation -/

theorem greedyRunC_canceled (cancel : Nat → Bool) (allowed_sq : ℚ)
    (s : GreedyState) (p k : Nat) (cs : List Color)
    (hk : cancel k = true) (hp : p ≤ k) (hlen : k < p + cs.length) :
    (greedyRunC cancel allowed_sq s p cs).outcome = .canceled ∧
      (greedyRunC cancel allowed_sq s p cs).processed ≤ k := by
  induction cs generalizing s p with
  | nil => exact absurd hlen (by simpa using hp)
  | cons c cs ih =>
    by_cases hc : cancel p = true
    · constructor <;> simp [greedyRunC, is_canceled, hc, hp]
    · have hpk : p < k := lt_of_le_of_ne hp fun he => hc (he ▸ hk)
      have hrec := ih (greedyStep allowed_sq s c).1 (p + 1) hpk
        (by simp only [List.length_cons] at hlen; omega)
      refine ⟨?_, ?_⟩
      · simpa [greedyRunC, is_canceled, hc] using hrec.1
      · simpa [greedyRunC, is_canceled, hc] using hrec.2

theorem fixedRunC_canceled (cancel : Nat → Bool) (pallette : List Color)
    (cache : Cache) (p k : Nat) (cs : List Color)
    (hk : cancel k = true) (hp : p ≤ k) (hlen : k < p + cs.length) :
    (fixedRunC cancel pallette cache p cs).outcome = .canceled ∧
      (fixedRunC cancel pallette cache p cs).processed ≤ k := by
  induction cs generalizing cache p with
  | nil => exact absurd hlen (by simpa using hp)
  | cons c cs ih =>
    by_cases hc : cancel p = true
    · constructor <;> simp [fixedRunC, is_canceled, hc, hp]
    · have hpk : p < k := lt_of_le_of_ne hp fun he => hc (he ▸ hk)
      have hrec := ih (fixedStep pallette cache c).1 (p + 1) hpk
        (by simp only [List.length_cons] at hlen; omega)
      refine ⟨?_, ?_⟩
      · simpa [fixedRunC, is_canceled, hc] using hrec.1
      · simpa [fixedRunC, is_canceled, hc] using hrec.2

/-- C7: once the (one-way, monotone) cancellation flag is observed
set — say at the poll preceding the `(k+1)`-st pixel, with `k` short of
the total — the run in either mode terminates with the CANCELED
outcome, never COMPLETED, having processed at most `k` pixels (zero
further pixels beyond the request, well within the claimed one-batch /
one-tile bound); and requesting cancellation is a total operation that
simply sets the flag, never raising an error. -/
theorem cancellation_prompt (allowed_sq : ℚ) (pallette cs : List Color)
    (cancel : Nat → Bool) (hmono : CancelMono cancel) (k : Nat)
    (hk : cancel k = true) (hlen : k < cs.length) :
    (∀ b, request_cancel b = true) ∧
    ((greedyRunC cancel allowed_sq ⟨[], []⟩ 0 cs).outcome = .canceled ∧
      (greedyRunC cancel allowed_sq ⟨[], []⟩ 0 cs).outcome ≠ .completed ∧
      (greedyRunC cancel allowed_sq ⟨[], []⟩ 0 cs).processed ≤ k) ∧
    ((fixedRunC cancel pallette [] 0 cs).outcome = .canceled ∧
      (fixedRunC cancel pallette [] 0 cs).outcome ≠ .completed ∧
      (fixedRunC cancel pallette [] 0 cs).processed ≤ k) := by
  have _ := hmono
  obtain ⟨hg1, hg2⟩ := greedyRunC_canceled cancel allowed_sq ⟨[], []⟩ 0 k cs hk
    (Nat.zero_le k) (by simpa using hlen)
  obtain ⟨hf1, hf2⟩ := fixedRunC_canceled cancel pallette [] 0 k cs hk
    (Nat.zero_le k) (by simpa using hlen)
  exact ⟨fun _ => rfl, ⟨hg1, by rw [hg1]; exact fun h => Outcome.noConfusion h, hg2⟩,
    ⟨hf1, by rw [hf1]; exact fun h => Outcome.noConfusion h, hf2⟩⟩

/-- Witness for **C7**: cancellation already requested at run start on
a one-pixel grid; both modes cancel immediately. -/
theorem cancellation_prompt_witness :
    (∀ b, request_cancel b = true) ∧
    ((greedyRunC (fun _ => true) 0 ⟨[], []⟩ 0 [(⟨0, 0, 0⟩ : Color)]).outcome = .canceled ∧
      (greedyRunC (fun _ => true) 0 ⟨[], []⟩ 0 [(⟨0, 0, 0⟩ : Color)]).outcome ≠ .completed ∧
      (greedyRunC (fun _ => true) 0 ⟨[], []⟩ 0 [(⟨0, 0, 0⟩ : Color)]).processed ≤ 0) ∧
    ((fixedRunC (fun _ => true) [] [] 0 [(⟨0, 0, 0⟩ : Color)]).outcome = .canceled ∧
      (fixedRunC (fun _ => true) [] [] 0 [(⟨0, 0, 0⟩ : Color)]).outcome ≠ .completed ∧
      (fixedRunC (fun _ => true) [] [] 0 [(⟨0, 0, 0⟩ : Color)]).processed ≤ 0) :=
  cancellation_prompt 0 [] [⟨0, 0, 0⟩] (fun _ => true) (fun _ _ _ h => h) 0 rfl
    (by simp)

/-! ## The worker never touches the original image -/

/-- C10: in either mode and under any cancellation schedule — so on
both COMPLETED and CANCELED outcomes — the worker leaves the caller's
original image exactly as it was: the scan operates on the copy taken
at run start. -/
theorem worker_preserves_original (mode : Mode) (cancel : Nat → Bool)
    (app : AppImages) :
    (analyze_image_worker mode cancel app).1.original_image =
      app.original_image := by
  unfold analyze_image_worker
  cases mode with
  | simplify allowed_sq =>
    dsimp only
    split <;> rfl
  | fixedPalette pallette =>
    dsimp only
    split <;> rfl

end PaletteOptimizer
